import Mathlib

/-!
Verification of `util/generate-ami-list.py`: a utility that discovers
AWS ParallelCluster AMIs per region, merges them into a CloudFormation
template mapping, and renders a text report.

Python dictionaries are embedded as association lists with insertion-order
semantics: assignment to an existing key updates the value in place,
assignment to a fresh key appends at the end.  Strings are Lean `String`s,
the Python substring test `a in b` is an executable character-list scan.
-/

namespace AmiList

/-- Assignment `d[k] = v` on a Python dict: update in place when the key
exists, append otherwise. -/
def dictInsert {α : Type} : List (String × α) → String → α → List (String × α)
  | [], k, v => [(k, v)]
  | (k', v') :: rest, k, v =>
    if k' = k then (k, v) :: rest else (k', v') :: dictInsert rest k v

/-- Lookup `d[k]` / `k in d` on a Python dict. -/
def dictGet? {α : Type} : List (String × α) → String → Option α
  | [], _ => none
  | (k', v') :: rest, k => if k' = k then some v' else dictGet? rest k

/-- Keys of a dict, in insertion order. -/
def dictKeys {α : Type} (d : List (String × α)) : List String :=
  d.map Prod.fst

/-- A Python dict never holds the same key twice. -/
def NodupKeys {α : Type} (d : List (String × α)) : Prop :=
  (dictKeys d).Nodup

instance {α : Type} (d : List (String × α)) : Decidable (NodupKeys d) := by
  unfold NodupKeys; infer_instance

/-- `current.update(new)`: assign every pair of `new` into `current`,
in order. -/
def pyUpdate {α : Type} (current new : List (String × α)) : List (String × α) :=
  new.foldl (fun d kv => dictInsert d kv.1 kv.2) current

/-- Lexicographic comparison of character lists by code point, the order
Python uses on strings. -/
def listLE : List Char → List Char → Bool
  | [], _ => true
  | _ :: _, [] => false
  | c :: cs, d :: ds =>
    if c.toNat < d.toNat then true
    else if d.toNat < c.toNat then false
    else listLE cs ds

/-- Lexicographic comparison of strings by code point. -/
def strLE (a b : String) : Prop := listLE a.data b.data = true

instance : DecidableRel strLE := fun a b =>
  inferInstanceAs (Decidable (listLE a.data b.data = true))

theorem listLE_total : ∀ x y : List Char, listLE x y = true ∨ listLE y x = true
  | [], _ => Or.inl rfl
  | _ :: _, [] => Or.inr rfl
  | c :: cs, d :: ds => by
    by_cases hcd : c.toNat < d.toNat
    · exact Or.inl (by simp [listLE, hcd])
    · by_cases hdc : d.toNat < c.toNat
      · exact Or.inr (by simp [listLE, hdc])
      · rcases listLE_total cs ds with h | h
        · exact Or.inl (by simp [listLE, hcd, hdc, h])
        · exact Or.inr (by simp [listLE, hcd, hdc, h])

theorem listLE_cons_iff (c d : Char) (cs ds : List Char) :
    listLE (c :: cs) (d :: ds) = true ↔
      c.toNat < d.toNat ∨ (c.toNat = d.toNat ∧ listLE cs ds = true) := by
  simp only [listLE]
  split_ifs with h1 h2
  · exact iff_of_true rfl (Or.inl h1)
  · refine iff_of_false (by simp) ?_
    rintro (h | ⟨h, _⟩) <;> omega
  · constructor
    · intro h
      exact Or.inr ⟨by omega, h⟩
    · rintro (h | ⟨_, h⟩)
      · omega
      · exact h

theorem listLE_trans : ∀ x y z : List Char,
    listLE x y = true → listLE y z = true → listLE x z = true
  | [], _, _, _, _ => rfl
  | _ :: _, [], _, h, _ => by simp [listLE] at h
  | _ :: _, _ :: _, [], _, h => by simp [listLE] at h
  | c :: cs, d :: ds, e :: es, h1, h2 => by
    rw [listLE_cons_iff] at h1 h2 ⊢
    rcases h1 with h1 | ⟨h1, h1'⟩ <;> rcases h2 with h2 | ⟨h2, h2'⟩
    · exact Or.inl (by omega)
    · exact Or.inl (by omega)
    · exact Or.inl (by omega)
    · exact Or.inr ⟨by omega, listLE_trans cs ds es h1' h2'⟩

/-- Ordering of dict entries by key, as used by `sorted(d.items())` on a
dict (keys are distinct, so the key decides). -/
def keyLE {α : Type} (a b : String × α) : Prop := strLE a.1 b.1

instance {α : Type} : DecidableRel (keyLE (α := α)) := fun a b =>
  inferInstanceAs (Decidable (strLE a.1 b.1))

instance {α : Type} : IsTotal (String × α) keyLE :=
  ⟨fun a b => listLE_total a.1.data b.1.data⟩

instance {α : Type} : IsTrans (String × α) keyLE :=
  ⟨fun a b c h1 h2 => listLE_trans a.1.data b.1.data c.1.data h1 h2⟩

/-- `OrderedDict(sorted(d.items()))`: the entries sorted by key. -/
def sortByKey {α : Type} (d : List (String × α)) : List (String × α) :=
  List.insertionSort keyLE d

/-- Does `needle` occur at the start of `hay`? -/
def startsWith : List Char → List Char → Bool
  | [], _ => true
  | _ :: _, [] => false
  | c :: cs, d :: ds => c = d && startsWith cs ds

/-- The Python substring test `needle in hay` on character lists. -/
def containsSub (needle : List Char) : List Char → Bool
  | [] => startsWith needle []
  | c :: t => startsWith needle (c :: t) || containsSub needle t

/-- `value in image.get("Name")` for strings. -/
def pyIn (needle hay : String) : Bool :=
  containsSub needle.data hay.data

/-- One record of the `describe_images` response: display name and image id. -/
structure Image where
  name : String
  imageId : String
deriving DecidableEq, Repr

/-- The fixed `distros` table: distro tag paired with the name fragment
expected in a matching AMI name, in declaration order. -/
def distros : List (String × String) :=
  [("alinux", "amzn"),
   ("centos6", "centos6"),
   ("centos7", "centos7"),
   ("ubuntu1404", "ubuntu-1404"),
   ("ubuntu1604", "ubuntu-1604")]

/-- Mapping from distro tag to image id for one region. -/
abbrev DistroMap := List (String × String)

/-- Mapping from region to its distro map. -/
abbrev AmisJson := List (String × DistroMap)

/-- The per-tag assignment performed for one image. -/
def tagStep (img : Image) (a : DistroMap) (kv : String × String) : DistroMap :=
  if pyIn kv.2 img.name then dictInsert a kv.1 img.imageId else a

/-- The last image of the response whose name contains the fragment. -/
def lastMatch (frag : String) (images : List Image) : Option Image :=
  (images.filter (fun i => pyIn frag i.name)).getLast?

/-- The image id recorded in the discovery result under a region and
distro tag, when any. -/
def recordedAt (amis_json : AmisJson) (r tag : String) : Option String :=
  (dictGet? amis_json r).bind fun inner => dictGet? inner tag

/-- The inner loop of `get_ami_list` for one image: for every distro whose
fragment occurs in the image name, assign the image id under that tag. -/
def scanImage (amis : DistroMap) (image : Image) : DistroMap :=
  distros.foldl
    (fun a kv => if pyIn kv.2 image.name then dictInsert a kv.1 image.imageId else a)
    amis

/-- The per-region dict `amis` built by scanning every returned image. -/
def buildAmis (images : List Image) : DistroMap :=
  images.foldl scanImage []

/-- Outcome of one `describe_images` call: a normal response, a
`botocore.exceptions.ClientError` carrying its error code, or any other
exception. -/
inductive QueryResult where
  | ok (images : List Image)
  | clientError (code : String)
  | otherError (msg : String)
deriving DecidableEq

/-- The warning printed for a region with no matching AMIs. -/
def warnMsg (region : String) : String :=
  "Warning: there are no AMIs in the selected region (" ++ region ++ ")"

/-- `get_ami_list`: one query per region; a `ClientError` skips the region,
any other exception propagates and aborts; a region with no matches gets a
warning and is omitted, otherwise its sorted distro map is recorded.
Returns the region map together with the warnings printed. -/
def get_ami_list (query : String → QueryResult) :
    List String → Except String (AmisJson × List String)
  | [] => .ok ([], [])
  | r :: rest =>
    match query r with
    | .otherError msg => .error msg
    | .clientError _ => get_ami_list query rest
    | .ok images =>
      let amis := buildAmis images
      match get_ami_list query rest with
      | .error msg => .error msg
      | .ok (json, warns) =>
        if amis.length = 0 then .ok (json, warnMsg r :: warns)
        else .ok ((r, sortByKey amis) :: json, warns)

/-- `convert_json_to_txt`: for each distro tag in table order emit a
`# tag` header, then one `region: ami` line per region whose map has the
tag, in the region map's order. -/
def convert_json_to_txt (amis_json : AmisJson) : String :=
  distros.foldl
    (fun txt kv =>
      amis_json.foldl
        (fun t rg =>
          match dictGet? rg.2 kv.1 with
          | some id => t ++ rg.1 ++ ": " ++ id ++ "\n"
          | none => t)
        (txt ++ "# " ++ kv.1 ++ "\n"))
    ""

/-- The merge step of `update_cfn_template` on the
`Mappings.AWSRegionOS2AMI` dict: `current.update(new)` followed by
`OrderedDict(sorted(...))`. -/
def update_cfn_template (current_amis amis_to_update : AmisJson) : AmisJson :=
  sortByKey (pyUpdate current_amis amis_to_update)

/-- The `--partition` dispatch of `__main__`: account id and anchor region
for the three supported partitions, nothing otherwise. -/
def partitionConfig (partition : String) : Option (String × String) :=
  if partition = "commercial" then some ("247102896272", "us-east-1")
  else if partition = "govcloud" then some ("124026578433", "us-gov-west-1")
  else if partition = "china" then some ("036028979999", "cn-north-1")
  else none

/-- External world of one run: the region enumeration per anchor region,
the per-region image query, and the parsed current template mapping. -/
structure Env where
  describeRegions : String → Except String (List String)
  query : String → QueryResult
  template : Except String AmisJson

/-- Observable outcome of a run: process exit status, the mapping written
to the CloudFormation template (if any), and the text written to the txt
report (if any). -/
structure MainOutcome where
  exitCode : Nat
  cfnWrite : Option AmisJson
  txtWrite : Option String
deriving DecidableEq

/-- The `__main__` pipeline: partition check, region enumeration, image
discovery, template merge and write, text report write.  An uncaught
exception ends the interpreter with exit status 1 and no further writes. -/
def runMain (partition : String) (env : Env) : MainOutcome :=
  match partitionConfig partition with
  | none => ⟨1, none, none⟩
  | some (_, anchor) =>
    match env.describeRegions anchor with
    | .error _ => ⟨1, none, none⟩
    | .ok regions =>
      match get_ami_list env.query regions with
      | .error _ => ⟨1, none, none⟩
      | .ok (amisDict, _) =>
        match env.template with
        | .error _ => ⟨1, none, none⟩
        | .ok current =>
          let merged := update_cfn_template current amisDict
          ⟨0, some merged, some (convert_json_to_txt merged)⟩

/-- The configured distro tags, in report order, as the spec lists them. -/
def reportTags : List String :=
  ["alinux", "centos6", "centos7", "ubuntu1404", "ubuntu1604"]

/-- One distro section of the report, as the spec describes it: a
`# tag` header line followed by one `region: id` line per region whose
map carries the tag, in the region map's order. -/
def sectionFor (amis_json : AmisJson) (tag : String) : String :=
  "# " ++ tag ++ "\n" ++
    String.join (amis_json.filterMap fun rg =>
      (dictGet? rg.2 tag).map fun id => rg.1 ++ ": " ++ id ++ "\n")

/-- The report as the spec describes it: the concatenation of one section
per configured distro tag, in configured order. -/
def reportSpec (amis_json : AmisJson) : String :=
  String.join (reportTags.map (sectionFor amis_json))

/-- Modelled from the spec: which provider error codes are authorization
rejections ("a partition restricts an account from a particular region").
The script itself never inspects the code of a `ClientError`. -/
def isAuthorizationCode (code : String) : Bool :=
  code = "UnauthorizedOperation" || code = "AccessDenied" || code = "AuthFailure"

/-! ### Dictionary lemmas -/

theorem dictGet?_dictInsert {α : Type} (d : List (String × α)) (k y : String) (v : α) :
    dictGet? (dictInsert d k v) y = if k = y then some v else dictGet? d y := by
  induction d with
  | nil => simp [dictInsert, dictGet?]
  | cons hd tl ih =>
    obtain ⟨k', v'⟩ := hd
    by_cases hk : k' = k
    · subst hk
      simp only [dictInsert, if_pos rfl, dictGet?]
      by_cases hy : k' = y <;> simp [hy]
    · simp only [dictInsert, if_neg hk, dictGet?]
      by_cases hy : k' = y
      · subst hy
        simp [hk, Ne.symm hk]
      · simp [hy, ih]

theorem dictGet?_eq_none_iff {α : Type} (d : List (String × α)) (y : String) :
    dictGet? d y = none ↔ y ∉ dictKeys d := by
  induction d with
  | nil => simp [dictGet?, dictKeys]
  | cons hd tl ih =>
    obtain ⟨k', v'⟩ := hd
    by_cases hy : k' = y
    · subst hy
      simp [dictGet?, dictKeys]
    · simp [dictGet?, dictKeys, hy, ih, Ne.symm hy]

theorem mem_of_dictGet?_eq_some {α : Type} {d : List (String × α)} {y : String} {v : α}
    (h : dictGet? d y = some v) : (y, v) ∈ d := by
  induction d with
  | nil => simp [dictGet?] at h
  | cons hd tl ih =>
    obtain ⟨k', v'⟩ := hd
    by_cases hy : k' = y
    · subst hy
      simp [dictGet?] at h
      simp [h]
    · simp [dictGet?, hy] at h
      exact List.mem_cons_of_mem _ (ih h)

theorem dictGet?_eq_some_of_mem {α : Type} {d : List (String × α)} {y : String} {v : α}
    (hd : NodupKeys d) (hm : (y, v) ∈ d) : dictGet? d y = some v := by
  induction d with
  | nil => simp at hm
  | cons hd0 tl ih =>
    obtain ⟨k', v'⟩ := hd0
    simp only [NodupKeys, dictKeys, List.map_cons, List.nodup_cons] at hd
    rcases List.mem_cons.mp hm with heq | hmem
    · obtain ⟨h1, h2⟩ := Prod.mk.injEq .. ▸ heq
      simp [dictGet?, h1.symm, h2]
    · have hy : k' ≠ y := by
        intro h
        exact hd.1 (h ▸ (List.mem_map.mpr ⟨(y, v), hmem, rfl⟩))
      simp [dictGet?, hy]
      exact ih hd.2 hmem

/-- With distinct keys, lookup only depends on the entries as a set:
it is stable under permutation. -/
theorem dictGet?_eq_of_perm {α : Type} {d d' : List (String × α)} (hn : NodupKeys d)
    (hp : d.Perm d') (y : String) : dictGet? d y = dictGet? d' y := by
  have hn' : NodupKeys d' := by
    unfold NodupKeys dictKeys at *
    exact (hp.map Prod.fst).nodup_iff.mp hn
  cases hv : dictGet? d y with
  | none =>
    rw [dictGet?_eq_none_iff] at hv
    symm
    rw [dictGet?_eq_none_iff]
    intro hc
    exact hv ((hp.map Prod.fst).mem_iff.mpr hc)
  | some v =>
    exact (dictGet?_eq_some_of_mem hn' (hp.mem_iff.mp (mem_of_dictGet?_eq_some hv))).symm

theorem sortByKey_perm {α : Type} (d : List (String × α)) : (sortByKey d).Perm d :=
  List.perm_insertionSort _ d

theorem dictGet?_sortByKey {α : Type} (d : List (String × α)) (hn : NodupKeys d)
    (y : String) : dictGet? (sortByKey d) y = dictGet? d y :=
  dictGet?_eq_of_perm (by
    unfold NodupKeys dictKeys at *
    exact ((sortByKey_perm d).map Prod.fst).nodup_iff.mpr hn) (sortByKey_perm d) y

theorem dictKeys_dictInsert {α : Type} (d : List (String × α)) (k : String) (v : α) :
    dictKeys (dictInsert d k v) = if k ∈ dictKeys d then dictKeys d else dictKeys d ++ [k] := by
  induction d with
  | nil => simp [dictInsert, dictKeys]
  | cons hd tl ih =>
    obtain ⟨k', v'⟩ := hd
    by_cases hk : k' = k
    · subst hk
      simp [dictInsert, dictKeys]
    · simp only [dictInsert, if_neg hk, dictKeys, List.map_cons] at *
      rw [ih]
      by_cases hmem : k ∈ List.map Prod.fst tl <;>
        simp [hmem, hk, Ne.symm hk]

theorem nodupKeys_dictInsert {α : Type} {d : List (String × α)} (hn : NodupKeys d)
    (k : String) (v : α) : NodupKeys (dictInsert d k v) := by
  unfold NodupKeys
  rw [dictKeys_dictInsert]
  by_cases hmem : k ∈ dictKeys d
  · simpa [hmem] using hn
  · simp only [hmem, if_neg, ite_false]
    exact List.Nodup.append hn (List.nodup_singleton k) (by simpa using hmem)

theorem nodupKeys_pyUpdate {α : Type} {current : List (String × α)} (hn : NodupKeys current)
    (new : List (String × α)) : NodupKeys (pyUpdate current new) := by
  induction new generalizing current with
  | nil => exact hn
  | cons hd tl ih => exact ih (nodupKeys_dictInsert hn hd.1 hd.2)

theorem dictGet?_pyUpdate_of_not_mem {α : Type} (current new : List (String × α))
    {y : String} (hy : y ∉ dictKeys new) :
    dictGet? (pyUpdate current new) y = dictGet? current y := by
  induction new generalizing current with
  | nil => rfl
  | cons hd tl ih =>
    simp only [dictKeys, List.map_cons, List.mem_cons] at hy
    push_neg at hy
    show dictGet? (pyUpdate (dictInsert current hd.1 hd.2) tl) y = _
    rw [ih _ (by simpa [dictKeys] using hy.2), dictGet?_dictInsert,
      if_neg (Ne.symm hy.1)]

/-! ### Discovery lemmas -/

theorem scanImage_eq_foldl (amis : DistroMap) (img : Image) :
    scanImage amis img = distros.foldl (tagStep img) amis := rfl

theorem distros_keys_nodup : (distros.map Prod.fst).Nodup := by decide

theorem dictGet?_tagStep_foldl_not_mem (img : Image) (l : List (String × String))
    (acc : DistroMap) {tag : String} (h : tag ∉ l.map Prod.fst) :
    dictGet? (l.foldl (tagStep img) acc) tag = dictGet? acc tag := by
  induction l generalizing acc with
  | nil => rfl
  | cons kv tl ih =>
    simp only [List.map_cons, List.mem_cons] at h
    push_neg at h
    show dictGet? (tl.foldl (tagStep img) (tagStep img acc kv)) tag = _
    rw [ih _ h.2]
    unfold tagStep
    split
    · rw [dictGet?_dictInsert, if_neg (Ne.symm h.1)]
    · rfl

theorem dictGet?_tagStep_foldl (img : Image) {l : List (String × String)}
    (hn : (l.map Prod.fst).Nodup) {tag frag : String} (hm : (tag, frag) ∈ l)
    (acc : DistroMap) :
    dictGet? (l.foldl (tagStep img) acc) tag =
      if pyIn frag img.name then some img.imageId else dictGet? acc tag := by
  induction l generalizing acc with
  | nil => simp at hm
  | cons kv tl ih =>
    simp only [List.map_cons, List.nodup_cons] at hn
    show dictGet? (tl.foldl (tagStep img) (tagStep img acc kv)) tag = _
    rcases List.mem_cons.mp hm with heq | hmem
    · subst heq
      rw [dictGet?_tagStep_foldl_not_mem img tl _ hn.1]
      unfold tagStep
      split <;> simp_all [dictGet?_dictInsert]
    · have hne : kv.1 ≠ tag := by
        intro h
        exact hn.1 (h ▸ List.mem_map.mpr ⟨(tag, frag), hmem, rfl⟩)
      rw [ih hn.2 hmem]
      cases hpf : pyIn frag img.name
      · simp only [hpf, Bool.false_eq_true, if_false]
        unfold tagStep
        split
        · rw [dictGet?_dictInsert, if_neg hne]
        · rfl
      · simp [hpf]

theorem dictGet?_scanImage (acc : DistroMap) (img : Image) {tag frag : String}
    (hm : (tag, frag) ∈ distros) :
    dictGet? (scanImage acc img) tag =
      if pyIn frag img.name then some img.imageId else dictGet? acc tag := by
  rw [scanImage_eq_foldl]
  exact dictGet?_tagStep_foldl img distros_keys_nodup hm acc

theorem nodupKeys_scanImage {acc : DistroMap} (hn : NodupKeys acc) (img : Image) :
    NodupKeys (scanImage acc img) := by
  rw [scanImage_eq_foldl]
  generalize distros = l
  induction l generalizing acc with
  | nil => exact hn
  | cons kv tl ih =>
    refine ih ?_
    unfold tagStep
    split
    · exact nodupKeys_dictInsert hn _ _
    · exact hn

theorem nodupKeys_buildAmis (imgs : List Image) : NodupKeys (buildAmis imgs) := by
  have h : ∀ acc : DistroMap, NodupKeys acc → NodupKeys (imgs.foldl scanImage acc) := by
    induction imgs with
    | nil => exact fun _ h => h
    | cons i rest ih => exact fun acc h => ih _ (nodupKeys_scanImage h i)
  exact h [] (by simp [NodupKeys, dictKeys])

theorem lastMatch_cons (frag : String) (i : Image) (rest : List Image) :
    lastMatch frag (i :: rest) =
      match lastMatch frag rest with
      | some j => some j
      | none => if pyIn frag i.name then some i else none := by
  unfold lastMatch
  rw [List.filter_cons]
  cases hrest : rest.filter (fun i => pyIn frag i.name) with
  | nil => cases hpi : pyIn frag i.name <;> simp [hpi, hrest]
  | cons x xs =>
    cases hj : (x :: xs).getLast? with
    | none => simp at hj
    | some j =>
      cases hpi : pyIn frag i.name <;>
        simp [hpi, hrest, List.getLast?_cons_cons, hj]

theorem dictGet?_foldl_scanImage (imgs : List Image) {tag frag : String}
    (hm : (tag, frag) ∈ distros) (acc : DistroMap) :
    dictGet? (imgs.foldl scanImage acc) tag =
      match lastMatch frag imgs with
      | some j => some j.imageId
      | none => dictGet? acc tag := by
  induction imgs generalizing acc with
  | nil => simp [lastMatch]
  | cons i rest ih =>
    show dictGet? (rest.foldl scanImage (scanImage acc i)) tag = _
    rw [ih, lastMatch_cons, dictGet?_scanImage acc i hm]
    cases lastMatch frag rest with
    | some j => rfl
    | none => cases pyIn frag i.name <;> simp

/-- Lookup in the per-region dict equals the id of the last matching
image, when one exists. -/
theorem dictGet?_buildAmis (imgs : List Image) {tag frag : String}
    (hm : (tag, frag) ∈ distros) :
    dictGet? (buildAmis imgs) tag = (lastMatch frag imgs).map Image.imageId := by
  unfold buildAmis
  rw [dictGet?_foldl_scanImage imgs hm]
  cases lastMatch frag imgs <;> rfl

theorem tagStep_foldl_of_no_match (img : Image) (l : List (String × String))
    (acc : DistroMap) (h : ∀ p ∈ l, pyIn p.2 img.name = false) :
    l.foldl (tagStep img) acc = acc := by
  induction l generalizing acc with
  | nil => rfl
  | cons kv tl ih =>
    show tl.foldl (tagStep img) (tagStep img acc kv) = acc
    rw [show tagStep img acc kv = acc from by simp [tagStep, h kv (List.mem_cons_self kv tl)]]
    exact ih acc fun p hp => h p (List.mem_cons_of_mem _ hp)

theorem scanImage_of_no_match (acc : DistroMap) (img : Image)
    (h : ∀ p ∈ distros, pyIn p.2 img.name = false) : scanImage acc img = acc := by
  rw [scanImage_eq_foldl]
  exact tagStep_foldl_of_no_match img distros acc h

theorem dictInsert_ne_nil {α : Type} (d : List (String × α)) (k : String) (v : α) :
    dictInsert d k v ≠ [] := by
  cases d with
  | nil => simp [dictInsert]
  | cons hd tl =>
    obtain ⟨k', v'⟩ := hd
    unfold dictInsert
    split <;> simp

theorem tagStep_foldl_ne_nil (img : Image) (l : List (String × String))
    {acc : DistroMap} (h : acc ≠ []) : l.foldl (tagStep img) acc ≠ [] := by
  induction l generalizing acc with
  | nil => exact h
  | cons kv tl ih =>
    refine ih ?_
    unfold tagStep
    split
    · exact dictInsert_ne_nil acc kv.1 img.imageId
    · exact h

theorem scanImage_ne_nil {acc : DistroMap} (img : Image) (h : acc ≠ []) :
    scanImage acc img ≠ [] := by
  rw [scanImage_eq_foldl]
  exact tagStep_foldl_ne_nil img distros h

theorem scanImage_ne_nil_of_match (acc : DistroMap) (img : Image)
    {p : String × String} (hp : p ∈ distros) (hm : pyIn p.2 img.name = true) :
    scanImage acc img ≠ [] := by
  rw [scanImage_eq_foldl]
  generalize hl : distros = l at hp
  clear hl
  induction l generalizing acc with
  | nil => simp at hp
  | cons kv tl ih =>
    show tl.foldl (tagStep img) (tagStep img acc kv) ≠ []
    rcases List.mem_cons.mp hp with heq | hmem
    · subst heq
      refine tagStep_foldl_ne_nil img tl ?_
      unfold tagStep
      rw [if_pos hm]
      exact dictInsert_ne_nil acc p.1 img.imageId
    · exact ih _ hmem

theorem foldl_scanImage_ne_nil (imgs : List Image) {acc : DistroMap} (h : acc ≠ []) :
    imgs.foldl scanImage acc ≠ [] := by
  induction imgs generalizing acc with
  | nil => exact h
  | cons i rest ih => exact ih (scanImage_ne_nil i h)

/-- The per-region dict is empty exactly when no returned image name
contains any configured distro fragment. -/
theorem buildAmis_eq_nil_iff (imgs : List Image) :
    buildAmis imgs = [] ↔ ∀ img ∈ imgs, ∀ p ∈ distros, pyIn p.2 img.name = false := by
  constructor
  · intro hnil
    by_contra hc
    push_neg at hc
    obtain ⟨img, himg, p, hp, hmne⟩ := hc
    have hm : pyIn p.2 img.name = true := by
      cases hv : pyIn p.2 img.name
      · exact absurd hv hmne
      · rfl
    refine absurd hnil ?_
    unfold buildAmis
    clear hnil
    induction imgs with
    | nil => simp at himg
    | cons i rest ih =>
      show rest.foldl scanImage (scanImage [] i) ≠ []
      rcases List.mem_cons.mp himg with heq | hmem
      · subst heq
        exact foldl_scanImage_ne_nil rest (scanImage_ne_nil_of_match [] img hp hm)
      · rcases Decidable.em (scanImage [] i = []) with hsc | hsc
        · rw [hsc]
          exact ih hmem
        · exact foldl_scanImage_ne_nil rest hsc
  · intro h
    unfold buildAmis
    induction imgs with
    | nil => rfl
    | cons i rest ih =>
      show rest.foldl scanImage (scanImage [] i) = []
      rw [scanImage_of_no_match [] i (h i (List.mem_cons_self i rest))]
      exact ih fun img hm p hp => h img (List.mem_cons_of_mem _ hm) p hp

/-- Every region key of the discovery result came from a successful query
with at least one matching image. -/
theorem mem_dictKeys_get_ami_list {query : String → QueryResult}
    {regions : List String} {result : AmisJson} {warns : List String}
    (hrun : get_ami_list query regions = .ok (result, warns))
    {r : String} (hr : r ∈ dictKeys result) :
    ∃ imgs, query r = .ok imgs ∧ buildAmis imgs ≠ [] := by
  induction regions generalizing result warns with
  | nil =>
    simp only [get_ami_list, Except.ok.injEq, Prod.mk.injEq] at hrun
    rw [← hrun.1] at hr
    simp [dictKeys] at hr
  | cons r0 rest ih =>
    cases hq0 : query r0 with
    | otherError msg => simp [get_ami_list, hq0] at hrun
    | clientError code =>
      simp only [get_ami_list, hq0] at hrun
      exact ih hrun hr
    | ok images0 =>
      cases hrec : get_ami_list query rest with
      | error msg => simp [get_ami_list, hq0, hrec] at hrun
      | ok pr =>
        obtain ⟨json, warns'⟩ := pr
        have hstep : get_ami_list query (r0 :: rest) =
            if (buildAmis images0).length = 0 then
              Except.ok (json, warnMsg r0 :: warns')
            else Except.ok ((r0, sortByKey (buildAmis images0)) :: json, warns') := by
          simp [get_ami_list, hq0, hrec]
        rw [hstep] at hrun
        by_cases hlen : (buildAmis images0).length = 0
        · rw [if_pos hlen] at hrun
          injection hrun with hrun
          injection hrun with h1 h2
          exact ih hrec (h1 ▸ hr)
        · rw [if_neg hlen] at hrun
          injection hrun with hrun
          injection hrun with h1 h2
          rw [← h1] at hr
          simp only [dictKeys, List.map_cons, List.mem_cons] at hr
          rcases hr with heq | hmem
          · exact ⟨images0, heq ▸ hq0, fun hc => hlen (by rw [hc]; rfl)⟩
          · exact ih hrec hmem

theorem lastMatch_eq_none_iff (frag : String) (imgs : List Image) :
    lastMatch frag imgs = none ↔ ∀ img ∈ imgs, pyIn frag img.name = false := by
  unfold lastMatch
  rw [List.getLast?_eq_none_iff]
  simp

/-- The value recorded under `(r, tag)` is the id of the last image of
`r`'s response whose name contains `tag`'s fragment. -/
theorem recordedAt_get_ami_list {query : String → QueryResult}
    {regions : List String} {r : String} {imgs : List Image}
    {result : AmisJson} {warns : List String}
    (hq : query r = QueryResult.ok imgs) (hr : r ∈ regions)
    (hrun : get_ami_list query regions = Except.ok (result, warns))
    {tag frag : String} (hm : (tag, frag) ∈ distros) :
    recordedAt result r tag = (lastMatch frag imgs).map Image.imageId := by
  induction regions generalizing result warns with
  | nil => simp at hr
  | cons r0 rest ih =>
    cases hq0 : query r0 with
    | otherError msg => simp [get_ami_list, hq0] at hrun
    | clientError code =>
      simp only [get_ami_list, hq0] at hrun
      rcases List.mem_cons.mp hr with heq | hmem
      · rw [heq] at hq
        rw [hq0] at hq
        exact absurd hq (by simp)
      · exact ih hmem hrun
    | ok images0 =>
      cases hrec : get_ami_list query rest with
      | error msg => simp [get_ami_list, hq0, hrec] at hrun
      | ok pr =>
        obtain ⟨json, warns'⟩ := pr
        have hstep : get_ami_list query (r0 :: rest) =
            if (buildAmis images0).length = 0 then
              Except.ok (json, warnMsg r0 :: warns')
            else Except.ok ((r0, sortByKey (buildAmis images0)) :: json, warns') := by
          simp [get_ami_list, hq0, hrec]
        rw [hstep] at hrun
        by_cases hr0 : r0 = r
        · subst hr0
          rw [hq0] at hq
          injection hq with hq
          rw [hq] at hrun
          by_cases hlen : (buildAmis imgs).length = 0
          · rw [if_pos hlen] at hrun
            injection hrun with hrun
            injection hrun with h1 _
            subst h1
            have hnil : buildAmis imgs = [] := List.length_eq_zero.mp hlen
            have hnomem : r0 ∉ dictKeys json := by
              intro hc
              obtain ⟨imgs', hq', hne⟩ := mem_dictKeys_get_ami_list hrec hc
              rw [hq0] at hq'
              injection hq' with hq'
              refine hne ?_
              rw [← hq', hq]
              exact hnil
            have hlm : dictGet? (buildAmis imgs) tag = (lastMatch frag imgs).map Image.imageId :=
              dictGet?_buildAmis imgs hm
            rw [hnil] at hlm
            unfold recordedAt
            rw [(dictGet?_eq_none_iff json r0).mpr hnomem]
            rw [← hlm]
            rfl
          · rw [if_neg hlen] at hrun
            injection hrun with hrun
            injection hrun with h1 _
            subst h1
            unfold recordedAt
            show (dictGet? ((r0, sortByKey (buildAmis imgs)) :: json) r0).bind _ = _
            rw [show dictGet? ((r0, sortByKey (buildAmis imgs)) :: json) r0 =
                some (sortByKey (buildAmis imgs)) from by simp [dictGet?]]
            show dictGet? (sortByKey (buildAmis imgs)) tag = _
            rw [dictGet?_sortByKey _ (nodupKeys_buildAmis imgs)]
            exact dictGet?_buildAmis imgs hm
        · have hmem : r ∈ rest := by
            rcases List.mem_cons.mp hr with heq | hmem
            · exact absurd heq.symm hr0
            · exact hmem
          by_cases hlen : (buildAmis images0).length = 0
          · rw [if_pos hlen] at hrun
            injection hrun with hrun
            injection hrun with h1 _
            subst h1
            exact ih hmem hrec
          · rw [if_neg hlen] at hrun
            injection hrun with hrun
            injection hrun with h1 _
            subst h1
            have : recordedAt ((r0, sortByKey (buildAmis images0)) :: json) r tag =
                recordedAt json r tag := by
              unfold recordedAt
              rw [show dictGet? ((r0, sortByKey (buildAmis images0)) :: json) r =
                  dictGet? json r from by simp [dictGet?, hr0]]
            rw [this]
            exact ih hmem hrec

theorem dictGet?_pyUpdate_of_mem {α : Type} (current : List (String × α))
    {new : List (String × α)} (hn : NodupKeys new) {y : String}
    (hy : y ∈ dictKeys new) :
    dictGet? (pyUpdate current new) y = dictGet? new y := by
  induction new generalizing current with
  | nil => simp [dictKeys] at hy
  | cons kv tl ih =>
    obtain ⟨k, v⟩ := kv
    simp only [NodupKeys, dictKeys, List.map_cons, List.nodup_cons] at hn
    show dictGet? (pyUpdate (dictInsert current k v) tl) y = _
    by_cases hmem : y ∈ dictKeys tl
    · have hk : k ≠ y := fun h => hn.1 (h ▸ hmem)
      rw [ih _ hn.2 hmem]
      simp [dictGet?, hk]
    · have hk : k = y := by
        simp only [dictKeys, List.map_cons, List.mem_cons] at hy
        rcases hy with h | h
        · exact h.symm
        · exact absurd h hmem
      rw [dictGet?_pyUpdate_of_not_mem _ _ hmem, dictGet?_dictInsert, if_pos hk]
      simp [dictGet?, hk]

/-! ### String lemmas -/

theorem strFoldl_append (l : List String) (t : String) :
    l.foldl (fun r s => r ++ s) t = t ++ l.foldl (fun r s => r ++ s) "" := by
  induction l generalizing t with
  | nil => rw [List.foldl_nil, List.foldl_nil, String.append_empty]
  | cons s tl ih =>
    rw [List.foldl_cons, List.foldl_cons, ih (t ++ s), ih ("" ++ s),
      String.empty_append, String.append_assoc]

theorem strJoin_nil : String.join [] = "" := rfl

theorem strJoin_cons (s : String) (l : List String) :
    String.join (s :: l) = s ++ String.join l := by
  show (s :: l).foldl (fun r s => r ++ s) "" = _
  rw [List.foldl_cons, strFoldl_append l ("" ++ s), String.empty_append]
  rfl

/-! ### Report lemmas -/

theorem report_inner_foldl (tag : String) (l : AmisJson) (t : String) :
    l.foldl
      (fun t rg =>
        match dictGet? rg.2 tag with
        | some id => t ++ rg.1 ++ ": " ++ id ++ "\n"
        | none => t) t =
    t ++ String.join (l.filterMap fun rg =>
      (dictGet? rg.2 tag).map fun id => rg.1 ++ ": " ++ id ++ "\n") := by
  induction l generalizing t with
  | nil => rw [List.foldl_nil, List.filterMap_nil, strJoin_nil, String.append_empty]
  | cons rg tl ih =>
    rw [List.foldl_cons, List.filterMap_cons]
    cases hd : dictGet? rg.2 tag with
    | none => simp [hd, ih]
    | some id =>
      simp only [hd, ih, Option.map_some', strJoin_cons]
      rw [← String.append_assoc, ← String.append_assoc, ← String.append_assoc,
        ← String.append_assoc]

theorem report_outer_foldl (amis_json : AmisJson) (l : List (String × String)) (t : String) :
    l.foldl
      (fun txt kv =>
        amis_json.foldl
          (fun t rg =>
            match dictGet? rg.2 kv.1 with
            | some id => t ++ rg.1 ++ ": " ++ id ++ "\n"
            | none => t)
          (txt ++ "# " ++ kv.1 ++ "\n")) t =
    t ++ String.join (l.map fun kv => sectionFor amis_json kv.1) := by
  induction l generalizing t with
  | nil => rw [List.foldl_nil, List.map_nil, strJoin_nil, String.append_empty]
  | cons kv tl ih =>
    rw [List.foldl_cons, report_inner_foldl, ih, List.map_cons, strJoin_cons]
    unfold sectionFor
    simp only [String.append_assoc]

/-- The rendered report is exactly the spec's section-per-tag description. -/
theorem convert_eq_reportSpec (amis_json : AmisJson) :
    convert_json_to_txt amis_json = reportSpec amis_json := by
  unfold convert_json_to_txt reportSpec
  rw [report_outer_foldl, String.empty_append,
    show (reportTags.map (sectionFor amis_json)) =
      (distros.map fun kv => sectionFor amis_json kv.1) from rfl]

/-- Every tag of a tag list owns a header line inside the joined sections. -/
theorem join_sections_header (amis_json : AmisJson) (tags : List String)
    {tag : String} (h : tag ∈ tags) :
    ∃ pre post,
      String.join (tags.map (sectionFor amis_json)) = pre ++ ("# " ++ tag ++ "\n") ++ post := by
  induction tags with
  | nil => simp at h
  | cons t ts ih =>
    rw [List.map_cons, strJoin_cons]
    rcases List.mem_cons.mp h with heq | hmem
    · subst heq
      refine ⟨"", String.join (amis_json.filterMap fun rg =>
        (dictGet? rg.2 tag).map fun id => rg.1 ++ ": " ++ id ++ "\n") ++
          String.join (ts.map (sectionFor amis_json)), ?_⟩
      unfold sectionFor
      rw [String.empty_append, String.append_assoc, String.append_assoc]
    · obtain ⟨pre, post, hpp⟩ := ih hmem
      refine ⟨sectionFor amis_json t ++ pre, post, ?_⟩
      rw [hpp]
      simp [String.append_assoc]

/-- The full entry recorded for a region: absent exactly when its scan
produced an empty dict, the sorted scan result otherwise. -/
theorem dictGet?_get_ami_list {query : String → QueryResult}
    {regions : List String} {r : String} {imgs : List Image}
    {result : AmisJson} {warns : List String}
    (hq : query r = QueryResult.ok imgs) (hr : r ∈ regions)
    (hrun : get_ami_list query regions = Except.ok (result, warns)) :
    dictGet? result r =
      if buildAmis imgs = [] then none else some (sortByKey (buildAmis imgs)) := by
  induction regions generalizing result warns with
  | nil => simp at hr
  | cons r0 rest ih =>
    cases hq0 : query r0 with
    | otherError msg => simp [get_ami_list, hq0] at hrun
    | clientError code =>
      simp only [get_ami_list, hq0] at hrun
      rcases List.mem_cons.mp hr with heq | hmem
      · rw [heq] at hq
        rw [hq0] at hq
        exact absurd hq (by simp)
      · exact ih hmem hrun
    | ok images0 =>
      cases hrec : get_ami_list query rest with
      | error msg => simp [get_ami_list, hq0, hrec] at hrun
      | ok pr =>
        obtain ⟨json, warns'⟩ := pr
        have hstep : get_ami_list query (r0 :: rest) =
            if (buildAmis images0).length = 0 then
              Except.ok (json, warnMsg r0 :: warns')
            else Except.ok ((r0, sortByKey (buildAmis images0)) :: json, warns') := by
          simp [get_ami_list, hq0, hrec]
        rw [hstep] at hrun
        by_cases hr0 : r0 = r
        · subst hr0
          rw [hq0] at hq
          injection hq with hq
          rw [hq] at hrun
          by_cases hlen : (buildAmis imgs).length = 0
          · rw [if_pos hlen] at hrun
            injection hrun with hrun
            injection hrun with h1 _
            subst h1
            have hnil : buildAmis imgs = [] := List.length_eq_zero.mp hlen
            rw [if_pos hnil, dictGet?_eq_none_iff]
            intro hc
            obtain ⟨imgs', hq', hne⟩ := mem_dictKeys_get_ami_list hrec hc
            rw [hq0] at hq'
            injection hq' with hq'
            refine hne ?_
            rw [← hq', hq]
            exact hnil
          · rw [if_neg hlen] at hrun
            injection hrun with hrun
            injection hrun with h1 _
            subst h1
            rw [if_neg (fun hc => hlen (by rw [hc]; rfl))]
            simp [dictGet?]
        · have hmem : r ∈ rest := by
            rcases List.mem_cons.mp hr with heq | hmem
            · exact absurd heq.symm hr0
            · exact hmem
          by_cases hlen : (buildAmis images0).length = 0
          · rw [if_pos hlen] at hrun
            injection hrun with hrun
            injection hrun with h1 _
            subst h1
            exact ih hmem hrec
          · rw [if_neg hlen] at hrun
            injection hrun with hrun
            injection hrun with h1 _
            subst h1
            rw [show dictGet? ((r0, sortByKey (buildAmis images0)) :: json) r =
                dictGet? json r from by simp [dictGet?, hr0]]
            exact ih hmem hrec

/-- A region whose scan comes back empty gets its warning printed. -/
theorem warn_get_ami_list {query : String → QueryResult}
    {regions : List String} {r : String} {imgs : List Image}
    {result : AmisJson} {warns : List String}
    (hq : query r = QueryResult.ok imgs) (hr : r ∈ regions)
    (hrun : get_ami_list query regions = Except.ok (result, warns))
    (hnil : buildAmis imgs = []) : warnMsg r ∈ warns := by
  induction regions generalizing result warns with
  | nil => simp at hr
  | cons r0 rest ih =>
    cases hq0 : query r0 with
    | otherError msg => simp [get_ami_list, hq0] at hrun
    | clientError code =>
      simp only [get_ami_list, hq0] at hrun
      rcases List.mem_cons.mp hr with heq | hmem
      · rw [heq] at hq
        rw [hq0] at hq
        exact absurd hq (by simp)
      · exact ih hmem hrun
    | ok images0 =>
      cases hrec : get_ami_list query rest with
      | error msg => simp [get_ami_list, hq0, hrec] at hrun
      | ok pr =>
        obtain ⟨json, warns'⟩ := pr
        have hstep : get_ami_list query (r0 :: rest) =
            if (buildAmis images0).length = 0 then
              Except.ok (json, warnMsg r0 :: warns')
            else Except.ok ((r0, sortByKey (buildAmis images0)) :: json, warns') := by
          simp [get_ami_list, hq0, hrec]
        rw [hstep] at hrun
        by_cases hr0 : r0 = r
        · subst hr0
          rw [hq0] at hq
          injection hq with hq
          rw [hq] at hrun
          rw [if_pos (by rw [hnil]; rfl)] at hrun
          injection hrun with hrun
          injection hrun with _ h2
          rw [← h2]
          exact List.mem_cons_self _ _
        · have hmem : r ∈ rest := by
            rcases List.mem_cons.mp hr with heq | hmem
            · exact absurd heq.symm hr0
            · exact hmem
          by_cases hlen : (buildAmis images0).length = 0
          · rw [if_pos hlen] at hrun
            injection hrun with hrun
            injection hrun with _ h2
            rw [← h2]
            exact List.mem_cons_of_mem _ (ih hmem hrec)
          · rw [if_neg hlen] at hrun
            injection hrun with hrun
            injection hrun with _ h2
            rw [← h2]
            exact ih hmem hrec

/-- Every inner map placed in the discovery result is a sorted scan result. -/
theorem mem_get_ami_list_inner {query : String → QueryResult}
    {regions : List String} {result : AmisJson} {warns : List String}
    (hrun : get_ami_list query regions = Except.ok (result, warns))
    {r : String} {inner : DistroMap} (hmem : (r, inner) ∈ result) :
    ∃ amis, inner = sortByKey amis := by
  induction regions generalizing result warns with
  | nil =>
    simp only [get_ami_list, Except.ok.injEq, Prod.mk.injEq] at hrun
    rw [← hrun.1] at hmem
    simp at hmem
  | cons r0 rest ih =>
    cases hq0 : query r0 with
    | otherError msg => simp [get_ami_list, hq0] at hrun
    | clientError code =>
      simp only [get_ami_list, hq0] at hrun
      exact ih hrun hmem
    | ok images0 =>
      cases hrec : get_ami_list query rest with
      | error msg => simp [get_ami_list, hq0, hrec] at hrun
      | ok pr =>
        obtain ⟨json, warns'⟩ := pr
        have hstep : get_ami_list query (r0 :: rest) =
            if (buildAmis images0).length = 0 then
              Except.ok (json, warnMsg r0 :: warns')
            else Except.ok ((r0, sortByKey (buildAmis images0)) :: json, warns') := by
          simp [get_ami_list, hq0, hrec]
        rw [hstep] at hrun
        by_cases hlen : (buildAmis images0).length = 0
        · rw [if_pos hlen] at hrun
          injection hrun with hrun
          injection hrun with h1 _
          subst h1
          exact ih hrec hmem
        · rw [if_neg hlen] at hrun
          injection hrun with hrun
          injection hrun with h1 _
          subst h1
          rcases List.mem_cons.mp hmem with heq | hmem'
          · exact ⟨buildAmis images0, congrArg Prod.snd heq⟩
          · exact ih hrec hmem'

/-- Keys of a sorted dict are sorted in the code-point order. -/
theorem dictKeys_sortByKey_sorted {α : Type} (d : List (String × α)) :
    (dictKeys (sortByKey d)).Sorted strLE := by
  have h : (sortByKey d).Sorted keyLE :=
    List.sorted_insertionSort keyLE d
  unfold dictKeys
  exact List.pairwise_map.mpr h

/-! ### Claim theorems -/

/-- C1: for every region and configured distro tag, the discoverer records
an image id under `(region, tag)` iff the tag's fragment is a substring of
some returned image's name in that region, and the recorded id is that of
the last matching image in provider response order (last-write-wins). -/
theorem claim_discovery_last_write_wins
    (query : String → QueryResult) (regions : List String)
    (r tag frag : String) (imgs : List Image)
    (result : AmisJson) (warns : List String)
    (hq : query r = QueryResult.ok imgs) (hr : r ∈ regions)
    (hrun : get_ami_list query regions = Except.ok (result, warns))
    (hm : (tag, frag) ∈ distros) :
    recordedAt result r tag = (lastMatch frag imgs).map Image.imageId ∧
      ((∃ id, recordedAt result r tag = some id) ↔
        ∃ img ∈ imgs, pyIn frag img.name = true) := by
  have heq := recordedAt_get_ami_list hq hr hrun hm
  refine ⟨heq, ?_⟩
  rw [heq]
  constructor
  · rintro ⟨id, hid⟩
    by_contra hc
    push_neg at hc
    have hall : ∀ img ∈ imgs, pyIn frag img.name = false := by
      intro img hi
      cases hv : pyIn frag img.name
      · rfl
      · exact absurd hv (hc img hi)
    rw [(lastMatch_eq_none_iff frag imgs).mpr hall] at hid
    simp at hid
  · rintro ⟨img, hi, hpi⟩
    cases hlm : lastMatch frag imgs with
    | none =>
      have hfalse := (lastMatch_eq_none_iff frag imgs).mp hlm img hi
      rw [hpi] at hfalse
      cases hfalse
    | some j => exact ⟨j.imageId, by simp⟩

theorem claim_discovery_last_write_wins_witness :
    get_ami_list
        (fun _ => QueryResult.ok
          [⟨"a-amzn-1", "ami-1"⟩, ⟨"a-centos7-1", "ami-2"⟩, ⟨"b-amzn-2", "ami-3"⟩])
        ["us-east-1"] =
      Except.ok ([("us-east-1", [("alinux", "ami-3"), ("centos7", "ami-2")])], []) ∧
    recordedAt [("us-east-1", [("alinux", "ami-3"), ("centos7", "ami-2")])]
        "us-east-1" "alinux" = some "ami-3" :=
  ⟨rfl,
    (claim_discovery_last_write_wins
        (fun _ => QueryResult.ok
          [⟨"a-amzn-1", "ami-1"⟩, ⟨"a-centos7-1", "ami-2"⟩, ⟨"b-amzn-2", "ami-3"⟩])
        ["us-east-1"] "us-east-1" "alinux" "amzn"
        [⟨"a-amzn-1", "ami-1"⟩, ⟨"a-centos7-1", "ami-2"⟩, ⟨"b-amzn-2", "ami-3"⟩]
        [("us-east-1", [("alinux", "ami-3"), ("centos7", "ami-2")])] []
        rfl (by decide) rfl (by decide)).1.trans (by decide)⟩

/-- C2 counterexample: the claim says every provider error that is not an
authorization rejection is fatal; a `ClientError` whose code is a
throttling error, not an authorization one, is silently skipped. -/
theorem claim_auth_only_skip_cex :
    ¬ (∀ (query : String → QueryResult) (regions : List String) (r code : String),
        r ∈ regions → query r = QueryResult.clientError code →
        isAuthorizationCode code = false →
        ∃ msg, get_ami_list query regions = Except.error msg) := by
  intro h
  obtain ⟨msg, hmsg⟩ := h (fun _ => QueryResult.clientError "RequestLimitExceeded")
    ["us-east-1"] "us-east-1" "RequestLimitExceeded" (by decide) rfl (by decide)
  rw [show get_ami_list (fun _ => QueryResult.clientError "RequestLimitExceeded")
      ["us-east-1"] = Except.ok ([], []) from rfl] at hmsg
  exact absurd hmsg (by simp)

/-- C2 (amended): during per-region discovery, a query rejected with any
provider client error — authorization or not — is silently skipped without
aborting the run; only a failure that is not a client error is fatal and
aborts the run. -/
theorem claim_client_error_skips_region
    (query : String → QueryResult) (r : String) (rest : List String) :
    (∀ code, query r = QueryResult.clientError code →
      get_ami_list query (r :: rest) = get_ami_list query rest) ∧
    (∀ msg, query r = QueryResult.otherError msg →
      get_ami_list query (r :: rest) = Except.error msg) := by
  constructor <;> intro s h <;> simp [get_ami_list, h]

theorem claim_client_error_skips_region_witness :
    get_ami_list (fun _ => QueryResult.clientError "AccessDenied") ["cn-north-1"] =
      get_ami_list (fun _ => QueryResult.clientError "AccessDenied") [] :=
  (claim_client_error_skips_region
    (fun _ => QueryResult.clientError "AccessDenied") "cn-north-1" []).1 "AccessDenied" rfl

/-- C3: merging leaves every region key absent from the new discovery set
unchanged. -/
theorem claim_merge_preserves_unrelated_regions
    (current new : AmisJson) (y : String)
    (hc : NodupKeys current) (hy : y ∉ dictKeys new) :
    dictGet? (update_cfn_template current new) y = dictGet? current y := by
  unfold update_cfn_template
  rw [dictGet?_sortByKey _ (nodupKeys_pyUpdate hc new)]
  exact dictGet?_pyUpdate_of_not_mem current new hy

theorem claim_merge_preserves_unrelated_regions_witness :
    NodupKeys [("ap-south-1", [("alinux", "ami-000")])] ∧
    "ap-south-1" ∉ dictKeys [("us-east-1", [("alinux", "ami-111")])] ∧
    dictGet? (update_cfn_template
        [("ap-south-1", [("alinux", "ami-000")])]
        [("us-east-1", [("alinux", "ami-111")])]) "ap-south-1" =
      dictGet? [("ap-south-1", [("alinux", "ami-000")])] "ap-south-1" :=
  ⟨by decide, by decide,
    claim_merge_preserves_unrelated_regions
      [("ap-south-1", [("alinux", "ami-000")])]
      [("us-east-1", [("alinux", "ami-111")])] "ap-south-1" (by decide) (by decide)⟩

/-- C4: for a region present in both the template and the discovery set,
the merged entry is exactly the new inner mapping; old distro tags absent
from the new entry do not survive. -/
theorem claim_merge_replaces_region_wholesale
    (current new : AmisJson) (y : String)
    (hc : NodupKeys current) (hn : NodupKeys new) (hy : y ∈ dictKeys new) :
    dictGet? (update_cfn_template current new) y = dictGet? new y := by
  unfold update_cfn_template
  rw [dictGet?_sortByKey _ (nodupKeys_pyUpdate hc new)]
  exact dictGet?_pyUpdate_of_mem current hn hy

theorem claim_merge_replaces_region_wholesale_witness :
    dictGet? (update_cfn_template
        [("eu-west-1", [("alinux", "old-1"), ("centos6", "old-2")])]
        [("eu-west-1", [("alinux", "ami-9")])]) "eu-west-1" =
      some [("alinux", "ami-9")] :=
  (claim_merge_replaces_region_wholesale
      [("eu-west-1", [("alinux", "old-1"), ("centos6", "old-2")])]
      [("eu-west-1", [("alinux", "ami-9")])] "eu-west-1"
      (by decide) (by decide) (by decide)).trans (by decide)

/-- C5: after every merge, the merged mapping's region keys are in
lexicographic (code-point) sorted order. -/
theorem claim_merged_keys_sorted (current new : AmisJson) :
    (dictKeys (update_cfn_template current new)).Sorted strLE :=
  dictKeys_sortByKey_sorted (pyUpdate current new)

/-- C6: the report is exactly one section per configured distro tag, in
the order alinux, centos6, centos7, ubuntu1404, ubuntu1604, each section a
`# tag` header followed by one `region: id` line per region carrying the
tag, in the region map's key order, with no placeholder lines. -/
theorem claim_report_structure (amis_json : AmisJson) :
    convert_json_to_txt amis_json = reportSpec amis_json :=
  convert_eq_reportSpec amis_json

/-- C7: a queried region is omitted from the discovery result exactly when
none of its returned image names contains any configured fragment, and in
that case its warning is emitted. -/
theorem claim_region_omitted_iff_no_match
    (query : String → QueryResult) (regions : List String) (r : String)
    (imgs : List Image) (result : AmisJson) (warns : List String)
    (hq : query r = QueryResult.ok imgs) (hr : r ∈ regions)
    (hrun : get_ami_list query regions = Except.ok (result, warns)) :
    (dictGet? result r = none ↔
      ∀ img ∈ imgs, ∀ p ∈ distros, pyIn p.2 img.name = false) ∧
    ((∀ img ∈ imgs, ∀ p ∈ distros, pyIn p.2 img.name = false) → warnMsg r ∈ warns) := by
  have hget := dictGet?_get_ami_list hq hr hrun
  constructor
  · rw [hget]
    by_cases hnil : buildAmis imgs = []
    · rw [if_pos hnil]
      exact iff_of_true rfl ((buildAmis_eq_nil_iff imgs).mp hnil)
    · rw [if_neg hnil]
      refine iff_of_false (by simp) ?_
      intro hall
      exact hnil ((buildAmis_eq_nil_iff imgs).mpr hall)
  · intro hall
    exact warn_get_ami_list hq hr hrun ((buildAmis_eq_nil_iff imgs).mpr hall)

theorem claim_region_omitted_iff_no_match_witness :
    get_ami_list (fun _ => QueryResult.ok [⟨"noise", "ami-9"⟩]) ["eu-west-1"] =
      Except.ok ([], [warnMsg "eu-west-1"]) ∧
    warnMsg "eu-west-1" ∈ [warnMsg "eu-west-1"] :=
  ⟨rfl,
    (claim_region_omitted_iff_no_match (fun _ => QueryResult.ok [⟨"noise", "ami-9"⟩])
      ["eu-west-1"] "eu-west-1" [⟨"noise", "ami-9"⟩] [] [warnMsg "eu-west-1"]
      rfl (by decide) rfl).2 (by decide)⟩

/-- C8: an unsupported `--partition` value ends the run with exit status 1
and neither output file is written. -/
theorem claim_invalid_partition_exits_one_no_writes
    (partition : String) (env : Env)
    (h1 : partition ≠ "commercial") (h2 : partition ≠ "govcloud")
    (h3 : partition ≠ "china") :
    runMain partition env = ⟨1, none, none⟩ := by
  unfold runMain partitionConfig
  rw [if_neg h1, if_neg h2, if_neg h3]

theorem claim_invalid_partition_exits_one_no_writes_witness :
    ("unsupported" ≠ "commercial" ∧ "unsupported" ≠ "govcloud" ∧
      "unsupported" ≠ "china") ∧
    runMain "unsupported"
        ⟨fun _ => Except.ok [], fun _ => QueryResult.clientError "X", Except.ok []⟩ =
      ⟨1, none, none⟩ :=
  ⟨⟨by decide, by decide, by decide⟩,
    claim_invalid_partition_exits_one_no_writes "unsupported"
      ⟨fun _ => Except.ok [], fun _ => QueryResult.clientError "X", Except.ok []⟩
      (by decide) (by decide) (by decide)⟩

/-- C9: every inner distro map placed in the discovery result has its tag
keys in lexicographic (code-point) sorted order. -/
theorem claim_inner_maps_sorted
    (query : String → QueryResult) (regions : List String)
    (result : AmisJson) (warns : List String)
    (hrun : get_ami_list query regions = Except.ok (result, warns))
    (r : String) (inner : DistroMap) (hmem : (r, inner) ∈ result) :
    (dictKeys inner).Sorted strLE := by
  obtain ⟨amis, hamis⟩ := mem_get_ami_list_inner hrun hmem
  rw [hamis]
  exact dictKeys_sortByKey_sorted amis

theorem claim_inner_maps_sorted_witness :
    get_ami_list
        (fun _ => QueryResult.ok [⟨"a-centos7-1", "ami-2"⟩, ⟨"a-amzn-1", "ami-1"⟩])
        ["r1"] =
      Except.ok ([("r1", [("alinux", "ami-1"), ("centos7", "ami-2")])], []) ∧
    (dictKeys [("alinux", "ami-1"), ("centos7", "ami-2")]).Sorted strLE :=
  ⟨rfl,
    claim_inner_maps_sorted
      (fun _ => QueryResult.ok [⟨"a-centos7-1", "ami-2"⟩, ⟨"a-amzn-1", "ami-1"⟩])
      ["r1"] [("r1", [("alinux", "ami-1"), ("centos7", "ami-2")])] []
      rfl "r1" [("alinux", "ami-1"), ("centos7", "ami-2")] (by decide)⟩

/-- C10: the report holds a `# tag` header line for every configured
distro tag, also when no region has an entry for it. -/
theorem claim_header_for_every_tag (amis_json : AmisJson) {tag : String}
    (h : tag ∈ reportTags) :
    ∃ pre post,
      convert_json_to_txt amis_json = pre ++ ("# " ++ tag ++ "\n") ++ post := by
  rw [convert_eq_reportSpec]
  exact join_sections_header amis_json reportTags h

theorem claim_header_for_every_tag_witness :
    "centos6" ∈ reportTags ∧
    ∃ pre post,
      convert_json_to_txt [] = pre ++ ("# " ++ "centos6" ++ "\n") ++ post :=
  ⟨by decide, claim_header_for_every_tag [] (by decide)⟩

end AmiList
